import Mathlib

/-!
Verification development for the drag-and-drop canvas builder
(`src/app/page.tsx`, final draft: the version with positioned blocks,
uuid ids, move/toggle handlers and the connection resolver).

The editor core is embedded shallowly:
* `Block` mirrors the TypeScript `Block` record (id, type, label, x, y,
  optional `showMessage`).  Coordinates are embedded as `Int` (exact
  arithmetic in place of JavaScript numbers).
* `Session` bundles the React state of `Home` (`blocks`, `history`,
  `currentIndex`) together with a model of the uuid supply: `uuidv4()`
  from the external `uuid` package is modelled as reading entry
  `nextId` of an ambient id supply `ids : Nat → String` and bumping the
  counter.  `created` and `everStored` are ghost logs recording every
  instance ever created and every snapshot ever appended; no handler
  reads them.
* The event handlers (`handleDropBlock`, `handleUndo`, `handleRedo`,
  `moveBlock`, `toggleMessage`, the canvas-block hover handler and the
  connection recomputation `updateConnections`) are transcribed from the
  source.
-/

namespace CanvasApp

/-- The two placeable block kinds: `blockA` ("Block A") is the
Prerequisite kind, `blockB` ("Block B") the Dependent kind. -/
inductive BlockType where
  | blockA
  | blockB
deriving DecidableEq

/-- A placed block instance, mirroring the TS `Block` type:
`{ id; type; label; x; y; showMessage?: boolean }`.  The absent
optional field is `none`. -/
structure Block where
  id : String
  type : BlockType
  label : String
  x : Int
  y : Int
  showMessage : Option Bool
deriving DecidableEq

/-- Label derivation from the drop handler:
`` `Block ${type === "blockA" ? "A" : "B"}` ``. -/
def mkLabel (t : BlockType) : String :=
  "Block " ++ (if t == BlockType.blockA then "A" else "B")

/-- The placement rule as a predicate (spec name `validatePlacement`):
the negation of the rejection guard
`type === "blockB" && !blocks.some((b) => b.type === "blockA")`
at the top of `handleDropBlock`. -/
def validatePlacement (t : BlockType) (blocks : List Block) : Bool :=
  !(t == BlockType.blockB && !(blocks.any fun b => b.type == BlockType.blockA))

/-- The `Home` component state: `blocks` (live canvas state), `history`
(snapshots) and `currentIndex` (cursor), plus the uuid-supply counter
`nextId` and the two ghost logs `created` / `everStored`. -/
structure Session where
  blocks : List Block
  history : List (List Block)
  currentIndex : Nat
  nextId : Nat
  created : List Block
  everStored : List (List Block)
deriving DecidableEq

/-- Initial state: no blocks, one empty snapshot, cursor 0. -/
def initialSession : Session :=
  { blocks := [], history := [[]], currentIndex := 0,
    nextId := 0, created := [], everStored := [[]] }

/-- The history update inlined in `handleDropBlock`:
`[...history.slice(0, currentIndex + 1), newBlocks]` followed by
`setCurrentIndex(updatedHistory.length - 1)`.  Returns the new
snapshot list and the new cursor. -/
def commit (newState : List Block) (history : List (List Block))
    (currentIndex : Nat) : List (List Block) × Nat :=
  let updatedHistory := history.take (currentIndex + 1) ++ [newState]
  (updatedHistory, updatedHistory.length - 1)

/-- `handleDropBlock(type, x, y)`: reject a `blockB` drop when no
`blockA` is present (early return, nothing mutated); otherwise append a
fresh instance (id drawn from the uuid supply) and commit the new state
to history. -/
def handleDropBlock (ids : Nat → String) (t : BlockType) (x y : Int)
    (s : Session) : Session :=
  if t == BlockType.blockB && !(s.blocks.any fun b => b.type == BlockType.blockA) then
    s
  else
    let newBlock : Block :=
      { id := ids s.nextId, type := t, label := mkLabel t,
        x := x, y := y, showMessage := none }
    let newBlocks := s.blocks ++ [newBlock]
    let c := commit newBlocks s.history s.currentIndex
    { s with blocks := newBlocks, history := c.1, currentIndex := c.2,
             nextId := s.nextId + 1,
             created := s.created ++ [newBlock],
             everStored := s.everStored ++ [newBlocks] }

/-- The instance freshly created by an accepted `handleDropBlock` call. -/
def newBlockOf (ids : Nat → String) (t : BlockType) (x y : Int) (s : Session) : Block :=
  { id := ids s.nextId, type := t, label := mkLabel t, x := x, y := y, showMessage := none }

/-- `handleUndo`: if `currentIndex > 0`, step the cursor back and expose
`history[newIndex]`; otherwise do nothing. -/
def handleUndo (s : Session) : Session :=
  if 0 < s.currentIndex then
    let newIndex := s.currentIndex - 1
    { s with blocks := s.history.getD newIndex [], currentIndex := newIndex }
  else s

/-- `handleRedo`: if `currentIndex < history.length - 1`, step the
cursor forward and expose `history[newIndex]`; otherwise do nothing. -/
def handleRedo (s : Session) : Session :=
  if s.currentIndex < s.history.length - 1 then
    { s with blocks := s.history.getD (s.currentIndex + 1) [],
             currentIndex := s.currentIndex + 1 }
  else s

/-- `moveBlock(id, x, y)`: replace the position of every block whose id
matches, leave everything else (including history and cursor) alone. -/
def moveBlock (idv : String) (x y : Int) (s : Session) : Session :=
  { s with blocks := s.blocks.map fun b =>
      if b.id = idv then { b with x := x, y := y } else b }

/-- `toggleMessage(id)`: flip the optional `showMessage` flag of the
matching block (`!undefined` is `true` in JS, hence the `getD false`). -/
def toggleMessage (idv : String) (s : Session) : Session :=
  { s with blocks := s.blocks.map fun b =>
      if b.id = idv then { b with showMessage := some (!(b.showMessage.getD false)) } else b }

/-- The `hover` handler of a canvas block's drop target.  `hasRef` is
whether the hovered component's DOM ref is mounted, `positionCur` the
hovered component's `position.current` ref, `itemId` the id of the
dragged item and `delta` `monitor.getDifferenceFromInitialOffset()`.
The handler writes `position.current + delta` as the new absolute
position of the dragged item via `moveBlock`. -/
def hoverHandler (hasRef : Bool) (positionCur : Int × Int) (itemId : String)
    (delta : Option (Int × Int)) (s : Session) : Session :=
  if !hasRef then s
  else
    match delta with
    | none => s
    | some d => moveBlock itemId (positionCur.1 + d.1) (positionCur.2 + d.2) s

/-- Square of the Euclidean distance between two points.
`Math.hypot(ax - bx, ay - by)` is strictly monotone in this quantity,
so every comparison made by the resolver is preserved exactly. -/
def distSq (p q : Int × Int) : Int :=
  (p.1 - q.1) ^ 2 + (p.2 - q.2) ^ 2

/-- Rendered position of a block: the ref-map entry for its id
(defaulting arbitrarily; only used under the hypothesis that the entry
is present). -/
def posOf (refs : String → Option (Int × Int)) (b : Block) : Int × Int :=
  (refs b.id).getD (0, 0)

/-- The `reduce` inside `updateConnections` computing the nearest
`blockA` for a given `blockB`: skip entries whose refs are missing,
otherwise keep the incumbent unless the candidate is strictly closer. -/
def nearestA (refs : String → Option (Int × Int)) (aBlocks : List Block)
    (b : Block) : Option (Block × Int) :=
  aBlocks.foldl (fun nearest a =>
    match refs a.id, refs b.id with
    | some apos, some bpos =>
        let dist := distSq apos bpos
        match nearest with
        | none => some (a, dist)
        | some nst => if dist < nst.2 then some (a, dist) else some nst
    | _, _ => nearest) none

/-- `updateConnections`: for every `blockB` (in order) emit the pair
`(nearest blockA, that blockB)` when one exists. -/
def updateConnections (refs : String → Option (Int × Int))
    (blocks : List Block) : List (Block × Block) :=
  let aBlocks := blocks.filter fun b => b.type == BlockType.blockA
  let bBlocks := blocks.filter fun b => b.type == BlockType.blockB
  bBlocks.filterMap fun b => (nearestA refs aBlocks b).map fun p => (p.1, b)

/-- Transcribed from the specification of the Connection Resolver: the
minimum-`key` element of a list, preferring the earlier (first-inserted)
element on exactly equal keys. -/
def specNearest (key : Block → Int) : List Block → Option Block
  | [] => none
  | a :: rest =>
    match specNearest key rest with
    | none => some a
    | some m => if key a ≤ key m then some a else some m

/-- The pure step function of `nearestA` once both refs are known to be
present, phrased over a distance key. -/
def pureStep (key : Block → Int) (nearest : Option (Block × Int))
    (a : Block) : Option (Block × Int) :=
  match nearest with
  | none => some (a, key a)
  | some nst => if key a < nst.2 then some (a, key a) else some nst

/-- Inbound events of the editor core. -/
inductive Event where
  | drop (t : BlockType) (x y : Int)
  | move (idv : String) (x y : Int)
  | toggle (idv : String)
  | undo
  | redo
deriving DecidableEq

/-- Events that go through the History Manager (accepted placements,
undo, redo); moves and toggles bypass it. -/
def Event.isHistoryOp : Event → Bool
  | .drop _ _ _ => true
  | .undo => true
  | .redo => true
  | _ => false

/-- One event dispatched to the corresponding handler. -/
def step (ids : Nat → String) (s : Session) : Event → Session
  | .drop t x y => handleDropBlock ids t x y s
  | .move idv x y => moveBlock idv x y s
  | .toggle idv => toggleMessage idv s
  | .undo => handleUndo s
  | .redo => handleRedo s

/-- A whole session: fold the events over the initial state. -/
def run (ids : Nat → String) (evs : List Event) : Session :=
  evs.foldl (step ids) initialSession

/-- Concrete injective id supply used by witnesses. -/
def idsW : Nat → String := fun n => String.mk (List.replicate n 'a')

/-- Concrete ref map used by the connection-resolver witness. -/
def refsW : String → Option (Int × Int) := fun s =>
  if s = "a1" then some (0, 0)
  else if s = "a2" then some (50, 0)
  else if s = "d1" then some (60, 0)
  else none

/-- Witness blocks: two Prerequisites and one Dependent. -/
def aW1 : Block :=
  { id := "a1", type := BlockType.blockA, label := "Block A", x := 0, y := 0, showMessage := none }

/-- Second witness Prerequisite. -/
def aW2 : Block :=
  { id := "a2", type := BlockType.blockA, label := "Block A", x := 50, y := 0, showMessage := none }

/-- Witness Dependent. -/
def dW1 : Block :=
  { id := "d1", type := BlockType.blockB, label := "Block B", x := 60, y := 0, showMessage := none }

/-- Witness canvas state. -/
def blocksW : List Block := [aW1, aW2, dW1]

/-- Counterexample fixture: dragged block at the origin. -/
def cexBlockX : Block :=
  { id := "x", type := BlockType.blockA, label := "Block A", x := 0, y := 0, showMessage := none }

/-- Counterexample fixture: a second block far away, acting as the
hover target. -/
def cexBlockY : Block :=
  { id := "y", type := BlockType.blockA, label := "Block A", x := 100, y := 100, showMessage := none }

/-- Counterexample fixture: session holding the two blocks. -/
def cexSession : Session :=
  { blocks := [cexBlockX, cexBlockY], history := [[]], currentIndex := 0,
    nextId := 2, created := [cexBlockX, cexBlockY], everStored := [[]] }

/-- Witness session with one committed block. -/
def sW : Session :=
  { blocks := [aW1], history := [[], [aW1]], currentIndex := 1,
    nextId := 1, created := [aW1], everStored := [[], [aW1]] }

/-- History well-formedness: the cursor is in range and the snapshot at
the cursor is the live canvas state. -/
def HistInv (s : Session) : Prop :=
  s.currentIndex < s.history.length
  ∧ s.history.getD s.currentIndex [] = s.blocks

/-- Dependency soundness of a canvas state: a Dependent present implies
a Prerequisite present. -/
def DepOk (l : List Block) : Prop :=
  (∃ b ∈ l, b.type = BlockType.blockB) → ∃ a ∈ l, a.type = BlockType.blockA

/-- Dependency soundness of the whole session: the live state, every
stored snapshot and every snapshot ever stored are all sound. -/
def DepInv (s : Session) : Prop :=
  DepOk s.blocks ∧ (∀ snap ∈ s.history, DepOk snap)
  ∧ ∀ snap ∈ s.everStored, DepOk snap

/-- Uuid-supply accounting: the ids of the instances created so far are
exactly the first `nextId` entries of the supply, in order. -/
def IdsInv (ids : Nat → String) (s : Session) : Prop :=
  s.created.map (fun b => b.id) = (List.range s.nextId).map ids

theorem getD_concat_length {α : Type} (l : List α) (a d : α) :
    (l ++ [a]).getD l.length d = a := by
  induction l with
  | nil => rfl
  | cons x xs ih => simp

theorem moveBlock_blocks_get (idv : String) (x y : Int) (s : Session) (i : Nat) :
    ((moveBlock idv x y s).blocks.get? i)
      = (s.blocks.get? i).map fun b =>
          if b.id = idv then { b with x := x, y := y } else b := by
  simp [moveBlock]

/-- C1: `validatePlacement` (the accept/reject decision of
`handleDropBlock`) accepts a Prerequisite drop unconditionally, accepts
a Dependent drop iff the current state contains at least one
Prerequisite, and a rejected drop changes nothing at all (state,
snapshots and cursor alike); on acceptance the new instance is appended. -/
theorem validatePlacement_decision (ids : Nat → String) (t : BlockType)
    (x y : Int) (s : Session) :
    validatePlacement BlockType.blockA s.blocks = true
    ∧ (validatePlacement BlockType.blockB s.blocks = true
        ↔ s.blocks.any (fun b => b.type == BlockType.blockA) = true)
    ∧ (validatePlacement t s.blocks = false → handleDropBlock ids t x y s = s)
    ∧ (validatePlacement t s.blocks = true →
        (handleDropBlock ids t x y s).blocks
          = s.blocks ++ [{ id := ids s.nextId, type := t, label := mkLabel t,
                           x := x, y := y, showMessage := none }]) := by
  refine ⟨by simp [validatePlacement], by simp [validatePlacement], ?_, ?_⟩
  · intro h
    have hg : (t == BlockType.blockB
        && !(s.blocks.any fun b => b.type == BlockType.blockA)) = true := by
      cases hb : (t == BlockType.blockB
          && !(s.blocks.any fun b => b.type == BlockType.blockA)) with
      | true => rfl
      | false => simp [validatePlacement, hb] at h
    simp [handleDropBlock, hg]
  · intro h
    have hg : (t == BlockType.blockB
        && !(s.blocks.any fun b => b.type == BlockType.blockA)) = false := by
      cases hb : (t == BlockType.blockB
          && !(s.blocks.any fun b => b.type == BlockType.blockA)) with
      | true => simp [validatePlacement, hb] at h
      | false => rfl
    simp [handleDropBlock, hg, commit]

theorem validatePlacement_decision_witness :
    handleDropBlock idsW BlockType.blockB 1 2 initialSession = initialSession :=
  (validatePlacement_decision idsW BlockType.blockB 1 2 initialSession).2.2.1 (by decide)

/-- C4: `commit` truncates the snapshots to indices `0..cursor`, appends
the new state and sets the cursor to the new last index; concretely,
from snapshots `[s0, s1, s2]` with cursor 2, an undo followed by
`commit s3` yields `[s0, s1, s3]` with cursor 2, on which redo is a
no-op. -/
theorem commit_truncates (newState : List Block) (history : List (List Block))
    (cursor : Nat) (s0 s1 s2 s3 bl : List Block) (n : Nat) (cr : List Block)
    (es : List (List Block)) :
    (commit newState history cursor).1 = history.take (cursor + 1) ++ [newState]
    ∧ (commit newState history cursor).2 + 1 = (commit newState history cursor).1.length
    ∧ handleUndo { blocks := bl, history := [s0, s1, s2], currentIndex := 2,
                   nextId := n, created := cr, everStored := es }
        = { blocks := s1, history := [s0, s1, s2], currentIndex := 1,
            nextId := n, created := cr, everStored := es }
    ∧ commit s3 [s0, s1, s2] 1 = ([s0, s1, s3], 2)
    ∧ handleRedo { blocks := s3, history := [s0, s1, s3], currentIndex := 2,
                   nextId := n, created := cr, everStored := es }
        = { blocks := s3, history := [s0, s1, s3], currentIndex := 2,
            nextId := n, created := cr, everStored := es } := by
  refine ⟨rfl, ?_, ?_, rfl, ?_⟩
  · simp [commit]
  · simp [handleUndo]
  · simp [handleRedo]

/-- C7: `moveBlock` never touches the history or the cursor; it rewrites
exactly the position of the blocks whose id matches, keeping every other
attribute and every other block bit-for-bit; with an id not present it
is a silent no-op. -/
theorem moveBlock_frame (idv : String) (x y : Int) (s : Session) :
    (moveBlock idv x y s).history = s.history
    ∧ (moveBlock idv x y s).currentIndex = s.currentIndex
    ∧ (∀ i, ((moveBlock idv x y s).blocks.get? i)
        = (s.blocks.get? i).map fun b =>
            if b.id = idv then { b with x := x, y := y } else b)
    ∧ ((∀ b ∈ s.blocks, b.id ≠ idv) → moveBlock idv x y s = s) := by
  refine ⟨rfl, rfl, fun i => moveBlock_blocks_get idv x y s i, fun h => ?_⟩
  have hmap : (s.blocks.map fun b =>
      if b.id = idv then { b with x := x, y := y } else b) = s.blocks := by
    have := List.map_congr_left (l := s.blocks)
      (f := fun b => if b.id = idv then { b with x := x, y := y } else b) (g := id)
      (fun b hb => by simp [h b hb])
    simpa using this
  show { s with blocks := _ } = s
  rw [hmap]

theorem moveBlock_frame_witness : moveBlock "z" 3 4 sW = sW :=
  (moveBlock_frame "z" 3 4 sW).2.2.2 (by decide)

/-- C10: `handleUndo` and `handleRedo` never modify the snapshot list
(nor the uuid counter or the ghost logs); at the boundaries (cursor 0
for undo, cursor at the last index for redo) they are complete no-ops. -/
theorem undo_redo_frame (s : Session) :
    (handleUndo s).history = s.history
    ∧ (handleRedo s).history = s.history
    ∧ (handleUndo s).nextId = s.nextId
    ∧ (handleRedo s).nextId = s.nextId
    ∧ (handleUndo s).created = s.created
    ∧ (handleRedo s).created = s.created
    ∧ (handleUndo s).everStored = s.everStored
    ∧ (handleRedo s).everStored = s.everStored
    ∧ (s.currentIndex = 0 → handleUndo s = s)
    ∧ (s.currentIndex = s.history.length - 1 → handleRedo s = s) := by
  refine ⟨?_, ?_, ?_, ?_, ?_, ?_, ?_, ?_, ?_, ?_⟩
  · unfold handleUndo; split <;> rfl
  · unfold handleRedo; split <;> rfl
  · unfold handleUndo; split <;> rfl
  · unfold handleRedo; split <;> rfl
  · unfold handleUndo; split <;> rfl
  · unfold handleRedo; split <;> rfl
  · unfold handleUndo; split <;> rfl
  · unfold handleRedo; split <;> rfl
  · intro h; simp [handleUndo, h]
  · intro h; simp [handleRedo, h]

theorem undo_redo_frame_witness :
    handleUndo initialSession = initialSession
    ∧ handleRedo initialSession = initialSession :=
  ⟨(undo_redo_frame initialSession).2.2.2.2.2.2.2.2.1 rfl,
   (undo_redo_frame initialSession).2.2.2.2.2.2.2.2.2 (by decide)⟩

/-- C8 counterexample: dragging the block with id `"x"` (drag-start
position `(0, 0)`) while the hover event is handled by the drop target
of the block `"y"` (whose position ref is `(100, 100)`) with pointer
delta `(5, 5)` writes `(105, 105)` — the hover target's ref plus the
delta — and not the dragged block's own drag-start position plus the
delta, which would be `(5, 5)`. -/
theorem hover_other_block_position_cex :
    ((hoverHandler true (100, 100) "x" (some (5, 5)) cexSession).blocks.get? 0)
      = some { cexBlockX with x := 105, y := 105 }
    ∧ ((hoverHandler true (100, 100) "x" (some (5, 5)) cexSession).blocks.get? 0)
      ≠ some { cexBlockX with x := cexBlockX.x + 5, y := cexBlockX.y + 5 } := by
  decide

theorem hover_overwrite (p d1 d2 : Int × Int) (idv : String) (s : Session) :
    hoverHandler true p idv (some d2) (hoverHandler true p idv (some d1) s)
      = hoverHandler true p idv (some d2) s := by
  simp only [hoverHandler, Bool.not_true, Bool.false_eq_true, if_false, moveBlock,
    List.map_map]
  congr 1
  apply List.map_congr_left
  intro b _
  by_cases hid : b.id = idv <;> simp [Function.comp, hid]

theorem hover_foldl_last (p : Int × Int) (idv : String) :
    ∀ (ds : List (Int × Int)) (s : Session) (h : ds ≠ []),
      ds.foldl (fun st dd => hoverHandler true p idv (some dd) st) s
        = hoverHandler true p idv (some (ds.getLast h)) s := by
  intro ds
  induction ds with
  | nil => intro s h; exact absurd rfl h
  | cons d1 rest ih =>
    intro s _
    cases rest with
    | nil => rfl
    | cons d2 rest2 =>
      have hne : d2 :: rest2 ≠ [] := by simp
      calc (d1 :: d2 :: rest2).foldl (fun st dd => hoverHandler true p idv (some dd) st) s
          = (d2 :: rest2).foldl (fun st dd => hoverHandler true p idv (some dd) st)
              (hoverHandler true p idv (some d1) s) := rfl
        _ = hoverHandler true p idv (some ((d2 :: rest2).getLast hne))
              (hoverHandler true p idv (some d1) s) := ih _ hne
        _ = hoverHandler true p idv (some ((d2 :: rest2).getLast hne)) s :=
              hover_overwrite p d1 _ idv s
        _ = hoverHandler true p idv (some ((d1 :: d2 :: rest2).getLast (by simp))) s := by
              rw [List.getLast_cons hne]

/-- C8 amended: a hover event handled by a mounted canvas-block drop
target writes, for the dragged item, the absolute position given by the
hover target's own `position.current` ref plus the cumulative pointer
delta from drag start (this equals the dragged block's drag-start
position plus the delta exactly when the hover target is the dragged
block itself); repeated hover frames within one drag do not accumulate:
any sequence of hover deltas ends at the position given by the last
cumulative delta alone. -/
theorem hover_writes_ref_plus_delta (p d : Int × Int) (idv : String)
    (s : Session) (ds : List (Int × Int)) (h : ds ≠ []) :
    (∀ i, ((hoverHandler true p idv (some d) s).blocks.get? i)
        = (s.blocks.get? i).map fun b =>
            if b.id = idv then { b with x := p.1 + d.1, y := p.2 + d.2 } else b)
    ∧ ds.foldl (fun st dd => hoverHandler true p idv (some dd) st) s
        = hoverHandler true p idv (some (ds.getLast h)) s := by
  constructor
  · intro i
    show ((moveBlock idv (p.1 + d.1) (p.2 + d.2) s).blocks.get? i) = _
    exact moveBlock_blocks_get idv (p.1 + d.1) (p.2 + d.2) s i
  · exact hover_foldl_last p idv ds s h

theorem hover_writes_ref_plus_delta_witness :
    ((hoverHandler true ((100 : Int), (100 : Int)) "x"
        (some ((7 : Int), (8 : Int))) cexSession).blocks.get? 0)
      = ((cexSession.blocks.get? 0).map fun b =>
          if b.id = "x" then { b with x := (100 : Int) + 7, y := (100 : Int) + 8 } else b)
    ∧ [((3 : Int), (4 : Int)), ((7 : Int), (8 : Int))].foldl
        (fun st dd => hoverHandler true ((100 : Int), (100 : Int)) "x" (some dd) st)
        cexSession
      = hoverHandler true ((100 : Int), (100 : Int)) "x"
          (some ([((3 : Int), (4 : Int)), ((7 : Int), (8 : Int))].getLast (by simp)))
          cexSession := by
  have hth := hover_writes_ref_plus_delta (100, 100) (7, 8) "x" cexSession
    [(3, 4), (7, 8)] (by simp)
  exact ⟨hth.1 0, hth.2⟩

theorem commit_lt (newState : List Block) (history : List (List Block))
    (cursor : Nat) :
    (commit newState history cursor).2 < (commit newState history cursor).1.length := by
  simp [commit]

theorem commit_getD (newState : List Block) (history : List (List Block))
    (cursor : Nat) :
    (commit newState history cursor).1.getD (commit newState history cursor).2 []
      = newState := by
  show ((history.take (cursor + 1) ++ [newState]).getD
    ((history.take (cursor + 1) ++ [newState]).length - 1) []) = newState
  rw [List.length_append]
  simp only [List.length_cons, List.length_nil, Nat.add_sub_cancel]
  exact getD_concat_length _ _ _

theorem histInv_step (ids : Nat → String) (e : Event) (s : Session)
    (h : HistInv s) (he : e.isHistoryOp = true) : HistInv (step ids s e) := by
  cases e with
  | drop t x y =>
    simp only [step, handleDropBlock]
    split
    · exact h
    · exact ⟨commit_lt _ _ _, commit_getD _ _ _⟩
  | move idv x y => simp [Event.isHistoryOp] at he
  | toggle idv => simp [Event.isHistoryOp] at he
  | undo =>
    simp only [step, handleUndo]
    split
    · rename_i hlt
      exact ⟨show s.currentIndex - 1 < s.history.length by have := h.1; omega, rfl⟩
    · exact h
  | redo =>
    simp only [step, handleRedo]
    split
    · rename_i hlt
      exact ⟨show s.currentIndex + 1 < s.history.length by omega, rfl⟩
    · exact h

theorem histInv_foldl (ids : Nat → String) :
    ∀ (evs : List Event) (s : Session), HistInv s →
      (∀ e ∈ evs, e.isHistoryOp = true) →
      HistInv (evs.foldl (step ids) s) := by
  intro evs
  induction evs with
  | nil => intro s h _; exact h
  | cons e rest ih =>
    intro s h hall
    exact ih _ (histInv_step ids e s h (hall e (by simp)))
      fun x hx => hall x (by simp [hx])

/-- C2: after every sequence of accepted placements, undos and redos
starting from the initial state (one empty snapshot, cursor 0), the
snapshot at the cursor equals the live canvas state exposed for
rendering. -/
theorem snapshots_cursor_eq_live (ids : Nat → String) (evs : List Event)
    (h : ∀ e ∈ evs, e.isHistoryOp = true) :
    (run ids evs).history.getD (run ids evs).currentIndex []
      = (run ids evs).blocks :=
  (histInv_foldl ids evs initialSession ⟨by simp [initialSession], rfl⟩ h).2

theorem snapshots_cursor_eq_live_witness :
    (run idsW [Event.drop BlockType.blockA 1 2, Event.undo, Event.redo]).history.getD
        (run idsW [Event.drop BlockType.blockA 1 2, Event.undo, Event.redo]).currentIndex []
      = (run idsW [Event.drop BlockType.blockA 1 2, Event.undo, Event.redo]).blocks :=
  snapshots_cursor_eq_live idsW _ (by decide)

theorem depOk_nil : DepOk [] := by
  rintro ⟨b, hb, _⟩
  exact absurd hb (List.not_mem_nil b)

theorem depOk_map (f : Block → Block) (hf : ∀ b, (f b).type = b.type)
    (l : List Block) (h : DepOk l) : DepOk (l.map f) := by
  rintro ⟨b, hb, hbB⟩
  obtain ⟨b0, hb0, hfb0⟩ := List.mem_map.mp hb
  obtain ⟨a, ha, haA⟩ := h ⟨b0, hb0, by rw [← hf b0, hfb0]; exact hbB⟩
  exact ⟨f a, List.mem_map_of_mem f ha, by rw [hf a]; exact haA⟩

theorem depOk_append (l : List Block) (nb : Block) (h : DepOk l)
    (hnb : nb.type = BlockType.blockB → ∃ a ∈ l, a.type = BlockType.blockA) :
    DepOk (l ++ [nb]) := by
  rintro ⟨b, hb, hbB⟩
  rcases List.mem_append.mp hb with hbl | hbr
  · obtain ⟨a, ha, haA⟩ := h ⟨b, hbl, hbB⟩
    exact ⟨a, List.mem_append.mpr (Or.inl ha), haA⟩
  · have hbe : b = nb := by simpa using hbr
    obtain ⟨a, ha, haA⟩ := hnb (hbe ▸ hbB)
    exact ⟨a, List.mem_append.mpr (Or.inl ha), haA⟩

theorem depOk_getD (h : List (List Block)) (i : Nat)
    (hall : ∀ snap ∈ h, DepOk snap) : DepOk (h.getD i []) := by
  by_cases hi : i < h.length
  · rw [List.getD_eq_getElem h [] hi]
    exact hall _ (List.getElem_mem hi)
  · rw [List.getD_eq_default _ _ (by omega)]
    exact depOk_nil

theorem depInv_step (ids : Nat → String) (e : Event) (s : Session)
    (h : DepInv s) : DepInv (step ids s e) := by
  obtain ⟨hb, hh, he⟩ := h
  cases e with
  | drop t x y =>
    simp only [step, handleDropBlock]
    split
    · exact ⟨hb, hh, he⟩
    · rename_i hguard
      have hdep : t = BlockType.blockB → ∃ a ∈ s.blocks, a.type = BlockType.blockA := by
        intro htB
        subst htB
        simp only [beq_self_eq_true, Bool.true_and, Bool.not_eq_true',
          Bool.not_eq_false] at hguard
        obtain ⟨a, ha, haA⟩ := List.any_eq_true.mp hguard
        exact ⟨a, ha, by simpa using haA⟩
      have hnewOk : DepOk (s.blocks ++
          [{ id := ids s.nextId, type := t, label := mkLabel t,
             x := x, y := y, showMessage := none }]) :=
        depOk_append s.blocks _ hb fun hB => hdep hB
      refine ⟨hnewOk, ?_, ?_⟩
      · intro snap hsnap
        rcases List.mem_append.mp hsnap with hl | hr
        · exact hh snap (List.mem_of_mem_take hl)
        · rw [List.mem_singleton] at hr
          exact hr ▸ hnewOk
      · intro snap hsnap
        rcases List.mem_append.mp hsnap with hl | hr
        · exact he snap hl
        · rw [List.mem_singleton] at hr
          exact hr ▸ hnewOk
  | move idv x y =>
    refine ⟨?_, hh, he⟩
    exact depOk_map _ (fun b => by by_cases hid : b.id = idv <;> simp [hid]) _ hb
  | toggle idv =>
    refine ⟨?_, hh, he⟩
    exact depOk_map _ (fun b => by by_cases hid : b.id = idv <;> simp [hid]) _ hb
  | undo =>
    simp only [step, handleUndo]
    split
    · exact ⟨depOk_getD _ _ hh, hh, he⟩
    · exact ⟨hb, hh, he⟩
  | redo =>
    simp only [step, handleRedo]
    split
    · exact ⟨depOk_getD _ _ hh, hh, he⟩
    · exact ⟨hb, hh, he⟩

theorem depInv_foldl (ids : Nat → String) :
    ∀ (evs : List Event) (s : Session), DepInv s →
      DepInv (evs.foldl (step ids) s) := by
  intro evs
  induction evs with
  | nil => intro s h; exact h
  | cons e rest ih =>
    intro s h
    exact ih _ (depInv_step ids e s h)

/-- C6: under every sequence of drop, move, toggle, undo and redo events
from the initial empty state, the reachable live canvas state, every
snapshot currently in the history, and every snapshot ever stored all
satisfy: a Dependent-kind instance present implies a Prerequisite-kind
instance present. -/
theorem dependent_implies_prerequisite (ids : Nat → String) (evs : List Event) :
    ((∃ b ∈ (run ids evs).blocks, b.type = BlockType.blockB) →
        ∃ a ∈ (run ids evs).blocks, a.type = BlockType.blockA)
    ∧ (∀ snap ∈ (run ids evs).history,
        (∃ b ∈ snap, b.type = BlockType.blockB) →
          ∃ a ∈ snap, a.type = BlockType.blockA)
    ∧ ∀ snap ∈ (run ids evs).everStored,
        (∃ b ∈ snap, b.type = BlockType.blockB) →
          ∃ a ∈ snap, a.type = BlockType.blockA := by
  have hinit : DepInv initialSession := by
    refine ⟨depOk_nil, ?_, ?_⟩ <;>
      · intro snap hsnap
        have : snap = [] := by simpa [initialSession] using hsnap
        exact this ▸ depOk_nil
  exact depInv_foldl ids evs initialSession hinit

theorem dependent_implies_prerequisite_witness :
    ∃ a ∈ (run idsW [Event.drop BlockType.blockA 0 0,
        Event.drop BlockType.blockB 1 1]).blocks,
      a.type = BlockType.blockA :=
  (dependent_implies_prerequisite idsW
    [Event.drop BlockType.blockA 0 0, Event.drop BlockType.blockB 1 1]).1 (by decide)

theorem idsInv_step (ids : Nat → String) (e : Event) (s : Session)
    (h : IdsInv ids s) : IdsInv ids (step ids s e) := by
  cases e with
  | drop t x y =>
    simp only [step, handleDropBlock]
    split
    · exact h
    · have h' : s.created.map (fun b => b.id) = (List.range s.nextId).map ids := h
      simp [IdsInv, List.range_succ, h']
  | move idv x y => exact h
  | toggle idv => exact h
  | undo =>
    simp only [step, handleUndo]
    split
    · exact h
    · exact h
  | redo =>
    simp only [step, handleRedo]
    split
    · exact h
    · exact h

theorem idsInv_foldl (ids : Nat → String) :
    ∀ (evs : List Event) (s : Session), IdsInv ids s →
      IdsInv ids (evs.foldl (step ids) s) := by
  intro evs
  induction evs with
  | nil => intro s h; exact h
  | cons e rest ih =>
    intro s h
    exact ih _ (idsInv_step ids e s h)

/-- C9: with the uuid generator modelled as an injective id supply, all
instances ever created through the accepted placement path carry
pairwise distinct ids, for every sequence of events. -/
theorem created_ids_nodup (ids : Nat → String) (evs : List Event)
    (h : Function.Injective ids) :
    ((run ids evs).created.map fun b => b.id).Nodup := by
  have hinv : IdsInv ids (run ids evs) :=
    idsInv_foldl ids evs initialSession rfl
  rw [show ((run ids evs).created.map fun b => b.id)
      = (List.range (run ids evs).nextId).map ids from hinv]
  exact (List.nodup_range _).map h

theorem idsW_injective : Function.Injective idsW := by
  intro m n hmn
  have hlen := congrArg String.length hmn
  simpa [idsW, String.length] using hlen

theorem created_ids_nodup_witness :
    ((run idsW [Event.drop BlockType.blockA 0 0,
        Event.drop BlockType.blockA 1 1]).created.map fun b => b.id).Nodup :=
  created_ids_nodup idsW _ idsW_injective

theorem undo_redo_top (bl : List Block) (T : List (List Block)) (n : Nat)
    (cr : List Block) (es : List (List Block)) (hT : T ≠ []) :
    handleRedo (handleUndo
      { blocks := bl, history := T ++ [bl], currentIndex := T.length,
        nextId := n, created := cr, everStored := es })
      = { blocks := bl, history := T ++ [bl], currentIndex := T.length,
          nextId := n, created := cr, everStored := es } := by
  have h1 : 0 < T.length := List.length_pos.mpr hT
  have hu : handleUndo
      { blocks := bl, history := T ++ [bl], currentIndex := T.length,
        nextId := n, created := cr, everStored := es }
      = { blocks := (T ++ [bl]).getD (T.length - 1) [], history := T ++ [bl],
          currentIndex := T.length - 1,
          nextId := n, created := cr, everStored := es } := by
    simp [handleUndo, h1]
  rw [hu]
  have h2 : T.length - 1 < (T ++ [bl]).length - 1 := by
    rw [List.length_append]
    simp only [List.length_cons, List.length_nil, Nat.add_sub_cancel]
    omega
  have h3 : T.length - 1 + 1 = T.length := by omega
  simp only [handleRedo, h2, if_pos, h3]
  rw [getD_concat_length]

/-- C3: for every session whose history is nonempty (as every reachable
history is) and every accepted drop, undo followed by redo restores the
exact post-commit session: live state, cursor and snapshots alike. -/
theorem undo_redo_roundtrip (ids : Nat → String) (t : BlockType) (x y : Int)
    (s : Session) (hne : s.history ≠ [])
    (hacc : validatePlacement t s.blocks = true) :
    handleRedo (handleUndo (handleDropBlock ids t x y s))
      = handleDropBlock ids t x y s := by
  have hg : (t == BlockType.blockB
      && !(s.blocks.any fun b => b.type == BlockType.blockA)) = false := by
    cases hb : (t == BlockType.blockB
        && !(s.blocks.any fun b => b.type == BlockType.blockA)) with
    | true => simp [validatePlacement, hb] at hacc
    | false => rfl
  have hT : s.history.take (s.currentIndex + 1) ≠ [] := by
    intro hemp
    have hlen := congrArg List.length hemp
    have hpos : 0 < s.history.length := List.length_pos.mpr hne
    simp [List.length_take] at hlen
    exact hne hlen
  have hdrop : handleDropBlock ids t x y s
      = { blocks := s.blocks ++ [newBlockOf ids t x y s],
          history := s.history.take (s.currentIndex + 1)
            ++ [s.blocks ++ [newBlockOf ids t x y s]],
          currentIndex := (s.history.take (s.currentIndex + 1)).length,
          nextId := s.nextId + 1,
          created := s.created ++ [newBlockOf ids t x y s],
          everStored := s.everStored ++ [s.blocks ++ [newBlockOf ids t x y s]] } := by
    simp [handleDropBlock, hg, commit, newBlockOf]
  rw [hdrop]
  exact undo_redo_top _ _ _ _ _ hT

theorem undo_redo_roundtrip_witness :
    handleRedo (handleUndo (handleDropBlock idsW BlockType.blockA 3 4 initialSession))
      = handleDropBlock idsW BlockType.blockA 3 4 initialSession :=
  undo_redo_roundtrip idsW BlockType.blockA 3 4 initialSession (by decide) (by decide)

theorem specNearest_cons (key : Block → Int) (a : Block) (l : List Block) :
    specNearest key (a :: l)
      = match specNearest key l with
        | none => some a
        | some m => if key a ≤ key m then some a else some m := by
  cases hsl : specNearest key l <;> simp [specNearest, hsl]

theorem specNearest_ne_none (key : Block → Int) (a : Block) (l : List Block) :
    specNearest key (a :: l) ≠ none := by
  rw [specNearest_cons]
  cases hsl : specNearest key l with
  | none => simp
  | some m => simp only; split <;> simp

theorem specNearest_spec (key : Block → Int) :
    ∀ (l : List Block) (m : Block), specNearest key l = some m →
      m ∈ l ∧ (∀ x ∈ l, key m ≤ key x)
      ∧ ∃ i, ∃ hi : i < l.length, l.get ⟨i, hi⟩ = m
          ∧ ∀ x ∈ l.take i, key m < key x := by
  intro l
  induction l with
  | nil => intro m hm; simp [specNearest] at hm
  | cons a t ih =>
    intro m hm
    rw [specNearest_cons] at hm
    cases ht : specNearest key t with
    | none =>
      simp only [ht] at hm
      have hma : a = m := by injection hm
      have ht0 : t = [] := by
        cases t with
        | nil => rfl
        | cons z t2 => exact absurd ht (specNearest_ne_none key z t2)
      subst hma
      subst ht0
      exact ⟨List.mem_cons_self a [], by intro x hx; simp at hx; simp [hx],
        0, by simp, rfl, by simp⟩
    | some q =>
      simp only [ht] at hm
      obtain ⟨hq_mem, hq_min, i, hi, hq_get, hq_take⟩ := ih q ht
      by_cases hle : key a ≤ key q
      · rw [if_pos hle] at hm
        have hma : a = m := by injection hm
        subst hma
        refine ⟨List.mem_cons_self a t, ?_, 0, by simp, rfl, by simp⟩
        intro x hx
        rcases List.mem_cons.mp hx with hxa | hxt
        · rw [hxa]
        · exact le_trans hle (hq_min x hxt)
      · rw [if_neg hle] at hm
        have hmq : q = m := by injection hm
        subst hmq
        have hqa : key q < key a := lt_of_not_ge hle
        refine ⟨List.mem_cons_of_mem a hq_mem, ?_, i + 1, Nat.succ_lt_succ hi,
          hq_get, ?_⟩
        · intro x hx
          rcases List.mem_cons.mp hx with hxa | hxt
          · rw [hxa]; exact le_of_lt hqa
          · exact hq_min x hxt
        · intro x hx
          rw [List.take_succ_cons] at hx
          rcases List.mem_cons.mp hx with hxa | hxt
          · rw [hxa]; exact hqa
          · exact hq_take x hxt

theorem foldl_pureStep_some (key : Block → Int) :
    ∀ (l : List Block) (m : Block),
      l.foldl (pureStep key) (some (m, key m))
        = (specNearest key (m :: l)).map fun u => (u, key u) := by
  intro l
  induction l with
  | nil => intro m; simp [specNearest]
  | cons a t ih =>
    intro m
    rw [List.foldl_cons]
    by_cases hlt : key a < key m
    · rw [show pureStep key (some (m, key m)) a = some (a, key a) by
        simp [pureStep, hlt]]
      rw [ih a]
      cases hsa : specNearest key (a :: t) with
      | none => exact absurd hsa (specNearest_ne_none key a t)
      | some p =>
        have hpa : key p ≤ key a :=
          (specNearest_spec key (a :: t) p hsa).2.1 a (List.mem_cons_self a t)
        have hR : specNearest key (m :: a :: t) = some p := by
          rw [specNearest_cons, hsa]
          show (if key m ≤ key p then some m else some p) = some p
          exact if_neg (by omega)
        rw [hR]
    · rw [show pureStep key (some (m, key m)) a = some (m, key m) by
        simp [pureStep, hlt]]
      rw [ih m]
      have hma : key m ≤ key a := by omega
      cases hst : specNearest key t with
      | none =>
        have h1 : specNearest key (m :: t) = some m := by
          rw [specNearest_cons, hst]
        have hat : specNearest key (a :: t) = some a := by
          rw [specNearest_cons, hst]
        have h2 : specNearest key (m :: a :: t) = some m := by
          rw [specNearest_cons, hat]
          show (if key m ≤ key a then some m else some a) = some m
          exact if_pos hma
        rw [h1, h2]
      | some q =>
        by_cases haq : key a ≤ key q
        · have h1 : specNearest key (m :: t) = some m := by
            rw [specNearest_cons, hst]
            show (if key m ≤ key q then some m else some q) = some m
            exact if_pos (le_trans hma haq)
          have hat : specNearest key (a :: t) = some a := by
            rw [specNearest_cons, hst]
            show (if key a ≤ key q then some a else some q) = some a
            exact if_pos haq
          have h2 : specNearest key (m :: a :: t) = some m := by
            rw [specNearest_cons, hat]
            show (if key m ≤ key a then some m else some a) = some m
            exact if_pos hma
          rw [h1, h2]
        · have hat : specNearest key (a :: t) = some q := by
            rw [specNearest_cons, hst]
            show (if key a ≤ key q then some a else some q) = some q
            exact if_neg haq
          have h1 : specNearest key (m :: t)
              = if key m ≤ key q then some m else some q := by
            rw [specNearest_cons, hst]
          have h2 : specNearest key (m :: a :: t)
              = if key m ≤ key q then some m else some q := by
            rw [specNearest_cons, hat]
          rw [h1, h2]

theorem foldl_pureStep_none (key : Block → Int) (l : List Block) :
    l.foldl (pureStep key) none = (specNearest key l).map fun u => (u, key u) := by
  cases l with
  | nil => rfl
  | cons a t =>
    rw [List.foldl_cons]
    rw [show pureStep key none a = some (a, key a) from rfl]
    exact foldl_pureStep_some key t a

theorem nearestA_eq_spec (refs : String → Option (Int × Int))
    (aBlocks : List Block) (b : Block)
    (ha : ∀ a ∈ aBlocks, (refs a.id).isSome = true)
    (hb : (refs b.id).isSome = true) :
    nearestA refs aBlocks b
      = (specNearest (fun a => distSq (posOf refs a) (posOf refs b)) aBlocks).map
          fun u => (u, distSq (posOf refs u) (posOf refs b)) := by
  have hfold : nearestA refs aBlocks b
      = aBlocks.foldl (pureStep fun a => distSq (posOf refs a) (posOf refs b)) none := by
    unfold nearestA
    apply List.foldl_ext
    intro acc a hmem
    obtain ⟨pa, hpa⟩ := Option.isSome_iff_exists.mp (ha a hmem)
    obtain ⟨pb, hpb⟩ := Option.isSome_iff_exists.mp hb
    cases acc with
    | none => simp [pureStep, posOf, hpa, hpb]
    | some nst => simp [pureStep, posOf, hpa, hpb]
  rw [hfold, foldl_pureStep_none]

theorem filterMap_ext_mem {α β : Type} (f g : α → Option β) :
    ∀ (l : List α), (∀ x ∈ l, f x = g x) → l.filterMap f = l.filterMap g := by
  intro l
  induction l with
  | nil => intro _; rfl
  | cons a t ih =>
    intro h
    rw [List.filterMap_cons, List.filterMap_cons, h a (List.mem_cons_self a t),
      ih fun x hx => h x (List.mem_cons_of_mem a hx)]

/-- C5: when every block has a rendered position, `updateConnections`
equals the specification map: for every Dependent-kind block (in order)
exactly one edge to `specNearest`, the minimum-distance Prerequisite
(no edge when no Prerequisite exists, since `specNearest` of the empty
list is `none`); and `specNearest` always returns a member of the
candidate list of minimal distance that is the first (lowest creation
order) among the minimizers: every earlier candidate is strictly
farther. -/
theorem updateConnections_nearest (refs : String → Option (Int × Int))
    (blocks : List Block)
    (h : ∀ bl ∈ blocks, (refs bl.id).isSome = true) :
    updateConnections refs blocks
      = (blocks.filter fun b => b.type == BlockType.blockB).filterMap
          (fun b => (specNearest (fun a => distSq (posOf refs a) (posOf refs b))
              (blocks.filter fun a => a.type == BlockType.blockA)).map fun a => (a, b))
    ∧ ∀ (key : Block → Int) (l : List Block) (m : Block),
        specNearest key l = some m →
          m ∈ l ∧ (∀ x ∈ l, key m ≤ key x)
          ∧ ∃ i, ∃ hi : i < l.length, l.get ⟨i, hi⟩ = m
              ∧ ∀ x ∈ l.take i, key m < key x := by
  constructor
  · simp only [updateConnections]
    apply filterMap_ext_mem
    intro b hbmem
    have hb : (refs b.id).isSome = true := h b (List.mem_filter.mp hbmem).1
    have ha : ∀ a ∈ (blocks.filter fun a => a.type == BlockType.blockA),
        (refs a.id).isSome = true :=
      fun a hamem => h a (List.mem_filter.mp hamem).1
    rw [nearestA_eq_spec refs _ b ha hb, Option.map_map]
    rfl
  · exact fun key l m hm => specNearest_spec key l m hm

theorem updateConnections_nearest_witness :
    updateConnections refsW blocksW
      = (blocksW.filter fun b => b.type == BlockType.blockB).filterMap
          (fun b => (specNearest (fun a => distSq (posOf refsW a) (posOf refsW b))
              (blocksW.filter fun a => a.type == BlockType.blockA)).map fun a => (a, b)) :=
  (updateConnections_nearest refsW blocksW (by decide)).1

end CanvasApp
